import Mathlib

/-!
Verification of the SteamHelper-rs schema-compiler core
(crates/steam-language-gen/src/bin/generate.rs) and of the
mobile-confirmation helpers
(crates/steam-mobile/src/web_handler/confirmation.rs).

Strings are modelled as List Char (the source works on byte slices of a
UTF-8 document; every delimiter it searches for is ASCII, so char-level
and byte-level search coincide).  Rust functions that can panic are
modelled with Option: a result of none marks a panic that aborts the
whole run.  Loops are modelled with an explicit fuel argument that is
provably large enough (see the stability lemmas), so that every
definition is executable by the kernel.
-/

/-! ### Definitions: shallow embedding of the source -/

/-- Convenience: the character list of a string literal. -/
def chars (s : String) : List Char := s.data

/-- Model of nom's complete take_until: longest input slice up to the
first occurrence of the pattern; fails when the pattern is absent.
Returns (consumed slice, remaining input starting with the pattern). -/
def take_until (pat : List Char) : List Char → Option (List Char × List Char)
  | [] => if pat.isPrefixOf [] then some ([], []) else none
  | c :: rest =>
    if pat.isPrefixOf (c :: rest) then some ([], c :: rest)
    else
      match take_until pat rest with
      | none => none
      | some (before, after) => some (c :: before, after)

/-- Model of nom's tag: consumes exactly the pattern from the front. -/
def tag (pat : List Char) (s : List Char) : Option (List Char) :=
  if pat.isPrefixOf s then some (s.drop pat.length) else none

/-- Model of nom's is_a: longest nonempty prefix made of characters of
the set; fails when that prefix is empty. -/
def is_a (set : List Char) (s : List Char) : Option (List Char × List Char) :=
  let consumed := s.takeWhile (fun c => set.contains c)
  if consumed.isEmpty then none
  else some (consumed, s.dropWhile (fun c => set.contains c))

/-- The CLASS preamble constant: the literal bytes of "class " (with a
trailing space), as in generate.rs. -/
def CLASS : List Char := chars "class "

/-- The CLASS_EOF block terminator constant: the literal bytes of the
closing brace followed by a semicolon. -/
def CLASS_EOF : List Char := chars "\x7d;"

/-- Model of extract_class_code: preceded(take_until(CLASS),
preceded(tag(CLASS), take_until_class_eof)), then the class name is cut
from the captured block with take_until("<") and an unwrap.  The outer
none models the parser failing (normal end of the extraction loop);
some none models the unwrap panicking because the block holds no
less-than sign; some (some (block, rest, name)) models a successful
yield (value.0, value.1, value.2 in the source). -/
def extract_class_code (stream : List Char) :
    Option (Option (List Char × List Char × List Char)) :=
  match take_until CLASS stream with
  | none => none
  | some (_, at_class) =>
    match tag CLASS at_class with
    | none => none
    | some after_kw =>
      match take_until CLASS_EOF after_kw with
      | none => none
      | some (block, rest) =>
        match take_until (['<'] : List Char) block with
        | none => some none
        | some (name, _) => some (some (block, rest, name))

/-- Model of extract_attr_lines: preceded(take_until("\x7b"),
tag("\x7b")).  The source returns the pair (remaining-after-brace,
brace); main only ever uses the remaining part, which is what this
model returns. -/
def extract_attr_lines (s : List Char) : Option (List Char) :=
  match take_until (['\x7b'] : List Char) s with
  | none => none
  | some (_, at_brace) =>
    match tag ['\x7b'] at_brace with
    | none => none
    | some rest => some rest

/-- Model of clear_lines_tab: is_a("\r\n\t"). -/
def clear_lines_tab (s : List Char) : Option (List Char × List Char) :=
  is_a (chars "\r\n\t") s

/-- Model of extract_member: preceded(clear_lines_tab, take_until(";")),
then the leading semicolon of the remaining input is dropped
(the &c.0[1..] slice in the source).  Returns (declaration, rest). -/
def extract_member (s : List Char) : Option (List Char × List Char) :=
  match clear_lines_tab s with
  | none => none
  | some (_, rest) =>
    match take_until ([';'] : List Char) rest with
    | none => none
    | some (decl, rem) => some (decl, rem.drop 1)

/-- Fuel-driven unfolding of the extract_members_exhaustive loop. -/
def extract_members_fuel : Nat → List Char → List (List Char)
  | 0, _ => []
  | fuel + 1, s =>
    match extract_member s with
    | none => []
    | some (decl, rest) => decl :: extract_members_fuel fuel rest

/-- Model of extract_members_exhaustive: repeatedly extract members
until extract_member fails.  The loop shortens its input on every
step (extract_member_length), so fuel equal to the input length can
never be exhausted (extract_members_fuel_stable). -/
def extract_members_exhaustive (s : List Char) : List (List Char) :=
  extract_members_fuel s.length s

/-- Model of split_words_to_vec: declaration.split(' ').collect(),
including the empty fragments Rust's split produces ("" splits to
[""], "a " to ["a", ""]). -/
def split_words_to_vec : List Char → List (List Char)
  | [] => [[]]
  | c :: rest =>
    if c = ' ' then [] :: split_words_to_vec rest
    else
      match split_words_to_vec rest with
      | [] => [[c]]
      | w :: ws => (c :: w) :: ws

/-- Model of match_type: the fixed raw-type to wire-type table; every
other token is returned unchanged. -/
def match_type (s : List Char) : List Char :=
  if s = chars "ulong" then chars "u64"
  else if s = chars "long" then chars "i64"
  else if s = chars "uint" then chars "u32"
  else if s = chars "int" then chars "i32"
  else if s = chars "ushort" then chars "u16"
  else if s = chars "short" then chars "i16"
  else if s = chars "byte" then chars "u8"
  else s

/-- Model of Rust's char::is_numeric as used by array_extract_size.
On the ASCII range handled by the IDL the Unicode numeric property
coincides with the decimal digits 0-9. -/
def char_is_numeric (c : Char) : Bool := c.isDigit

/-- Model of String::replacen(|c| !char::is_numeric(c), "", 10): drops
non-numeric characters until 10 of them have been replaced; everything
after the tenth replacement is kept verbatim. -/
def replacen_nonnum : List Char → Nat → List Char
  | [], _ => []
  | c :: rest, 0 => c :: rest
  | c :: rest, limit + 1 =>
    if char_is_numeric c then c :: replacen_nonnum rest (limit + 1)
    else replacen_nonnum rest limit

/-- Model of array_extract_size: slice.replacen(non-numeric, "", 10). -/
def array_extract_size (s : List Char) : List Char :=
  replacen_nonnum s 10

/-- Model of is_array: the token contains a less-than or greater-than
character. -/
def is_array (s : List Char) : Bool :=
  s.any (fun c => c == '<' || c == '>')

/-- Modelled from the spec: ASCII upper-case detection used by the
snake-case conversion.  The conversion itself (to_snake_case) lives in
the external inflector crate, whose source is not part of this
repository. -/
def is_upper_char (c : Char) : Bool := 65 ≤ c.toNat && c.toNat ≤ 90

/-- Modelled from the spec: ASCII alphanumeric detection for the
snake-case conversion; any other character acts as a word separator. -/
def is_alnum_char (c : Char) : Bool :=
  (48 ≤ c.toNat && c.toNat ≤ 57) ||
  (65 ≤ c.toNat && c.toNat ≤ 90) ||
  (97 ≤ c.toNat && c.toNat ≤ 122)

/-- Modelled from the spec: ASCII lower-casing for the snake-case
conversion. -/
def lower_char (c : Char) : Char :=
  if is_upper_char c then Char.ofNat (c.toNat + 32) else c

/-- Modelled from the spec: one pass of the snake-case conversion.
fresh is true at the start of the input and right after a separator;
a separator emits one underscore (only when a word character was
already emitted), an upper-case letter opens a new word (preceded by an
underscore when it does not start one), and every emitted word
character is lower-cased. -/
def snake_aux : Bool → List Char → List Char
  | _, [] => []
  | fresh, c :: rest =>
    if is_alnum_char c = false then
      if fresh then snake_aux true rest
      else '_' :: snake_aux true rest
    else if is_upper_char c then
      if fresh then lower_char c :: snake_aux false rest
      else '_' :: lower_char c :: snake_aux false rest
    else lower_char c :: snake_aux false rest

/-- Modelled from the spec: to_snake_case from the external inflector
crate — canonicalize a name to a word-boundary-delimited lower-case
form with underscores between words (giftId becomes gift_id, AccountId
becomes account_id). -/
def to_snake_case (s : List Char) : List Char := snake_aux true s

/-- Model of the per-statement body of parse_stmts: split the statement
on spaces, snake-case token 1 as the field name, then derive the wire
type from token 0.  Rust indexes stmt_tokens[1], which panics (modelled
as none) when the split yields fewer than two tokens. -/
def parse_stmt (stmt : List Char) : Option (List (List Char)) :=
  match split_words_to_vec stmt with
  | t0 :: t1 :: _ =>
    some [to_snake_case t1,
      if is_array t0 then chars "[u8; " ++ array_extract_size t0 ++ chars "]"
      else match_type t0]
  | _ => none

/-- Model of parse_stmts: the per-statement conversion over the whole
member vector; a panic in any statement aborts the run (none). -/
def parse_stmts : List (List Char) → Option (List (List (List Char)))
  | [] => some []
  | stmt :: rest =>
    match parse_stmt stmt with
    | none => none
    | some s =>
      match parse_stmts rest with
      | none => none
      | some r => some (s :: r)

/-- Model of petgraph's Graph<String, &str> as used by main: node
labels in insertion order (the node index is the position) and directed
edges in insertion order.  Every edge weight in the source is the
constant placeholder "0", so the weight is not carried. -/
structure Graph where
  nodes : List (List Char)
  edges : List (Nat × Nat)
deriving DecidableEq

/-- Model of graph.add_node: appends a node, returning the new graph
and the index of the added node. -/
def addNode (g : Graph) (label : List Char) : Graph × Nat :=
  (⟨g.nodes ++ [label], g.edges⟩, g.nodes.length)

/-- Model of graph.add_edge (the "0" weight is a placeholder). -/
def addEdge (g : Graph) (a b : Nat) : Graph :=
  ⟨g.nodes, g.edges ++ [(a, b)]⟩

/-- Model of the inner for_each of main: for each string of one parsed
statement, add a node labelled with it and an edge from the class node
to the new node. -/
def addFieldNodes (g : Graph) (classNode : Nat) : List (List Char) → Graph
  | [] => g
  | c :: rest =>
    addFieldNodes (addEdge (addNode g c).1 classNode (addNode g c).2) classNode rest

/-- Model of the outer statement loop of main: the inner for_each over
every parsed statement in order. -/
def processStmts (g : Graph) (classNode : Nat) : List (List (List Char)) → Graph
  | [] => g
  | stmt :: rest => processStmts (addFieldNodes g classNode stmt) classNode rest

/-- One iteration of main's while-let body on a successfully extracted
class: add the class node, the edge from the entry node (index 0), and
the field nodes and edges of the parsed statements. -/
def addClass (g : Graph) (name : List Char) (stmts : List (List (List Char))) : Graph :=
  processStmts (addEdge (addNode g name).1 0 (addNode g name).2) (addNode g name).2 stmts

/-- The graph main starts from: Graph::new() plus the "entry" node. -/
def entryGraph : Graph := ⟨[chars "entry"], []⟩

/-- Fuel-driven model of main's while-let loop over extract_class_code.
none models a panic (extract_class_code's unwrap, extract_attr_lines's
unwrap, or an out-of-bounds index inside parse_stmts). -/
def mainLoopF : Nat → Graph → List Char → Option Graph
  | 0, _, _ => none
  | fuel + 1, g, stream =>
    match extract_class_code stream with
    | none => some g
    | some none => none
    | some (some (block, rest, name)) =>
      match extract_attr_lines block with
      | none => none
      | some body =>
        match parse_stmts (extract_members_exhaustive body) with
        | none => none
        | some stmts => mainLoopF fuel (addClass g name stmts) rest

/-- Model of main up to the emission hand-off: the graph built from the
whole document (none when the run panics).  Each loop iteration
consumes at least the six bytes of the "class " keyword, so fuel
length + 1 can never be exhausted (mainGraph_eq + class_parsesF_stable). -/
def mainGraph (doc : List Char) : Option Graph :=
  mainLoopF (doc.length + 1) entryGraph doc

/-- One parsed class: its name and the parsed (name, wire-type)
statement pairs of its members. -/
abbrev ClassParse := List Char × List (List (List Char))

/-- Specification-level companion of the main loop: the list of parsed
classes of a document, with the same fuel discipline and the same
panic propagation as mainLoopF, but without graph construction. -/
def class_parsesF : Nat → List Char → Option (List ClassParse)
  | 0, _ => none
  | fuel + 1, stream =>
    match extract_class_code stream with
    | none => some []
    | some none => none
    | some (some (block, rest, name)) =>
      match extract_attr_lines block with
      | none => none
      | some body =>
        match parse_stmts (extract_members_exhaustive body) with
        | none => none
        | some stmts =>
          match class_parsesF fuel rest with
          | none => none
          | some L => some ((name, stmts) :: L)

/-- The parsed classes of a document. -/
def class_parses (doc : List Char) : Option (List ClassParse) :=
  class_parsesF (doc.length + 1) doc

/-- Folding addClass over a list of parsed classes. -/
def buildGraph (g : Graph) : List ClassParse → Graph
  | [] => g
  | p :: rest => buildGraph (addClass g p.1 p.2) rest

/-- The consecutive indices start, start+1, ..., start+n-1. -/
def seqFrom (start : Nat) : Nat → List Nat
  | 0 => []
  | n + 1 => start :: seqFrom (start + 1) n

/-- The node labels contributed by a list of parsed classes, in
insertion order: for each class its name then all its field labels. -/
def classesFlat : List ClassParse → List (List Char)
  | [] => []
  | (name, stmts) :: rest => name :: stmts.flatten ++ classesFlat rest

/-- The edges contributed by a list of parsed classes when the class
nodes start being inserted at index len. -/
def classEdges : Nat → List ClassParse → List (Nat × Nat)
  | _, [] => []
  | len, (_, stmts) :: rest =>
    (0, len) :: (seqFrom (len + 1) stmts.flatten.length).map (fun t => (len, t)) ++
      classEdges (len + 1 + stmts.flatten.length) rest

/-- The root-sourced edges contributed by a list of parsed classes. -/
def rootPairs : Nat → List ClassParse → List (Nat × Nat)
  | _, [] => []
  | len, (_, stmts) :: rest => (0, len) :: rootPairs (len + 1 + stmts.flatten.length) rest

/-- A character the snake-case pass emits verbatim: an ASCII
alphanumeric that is not upper case. -/
def stable_char (c : Char) : Bool := is_alnum_char c && !is_upper_char c

/-- Normal forms of the snake-case pass: only stable characters and
single underscores, an underscore only where allowed (never two in a
row, and at the head only when allowUnd is true). -/
def isNF : Bool → List Char → Bool
  | _, [] => true
  | allowUnd, c :: rest =>
    if c = '_' then allowUnd && isNF false rest
    else stable_char c && isNF true rest

/-- Model of EConfirmationType (confirmation.rs). -/
inductive EConfirmationType where
  | Unknown
  | Generic
  | Trade
  | Market
  | PhoneNumberChange
  | AccountRecovery
deriving DecidableEq

/-- Model of the derived FromPrimitive::from_u32 for EConfirmationType:
the discriminants are 0, 1, 2, 3, 5, 6 (there is no variant 4). -/
def EConfirmationType.from_u32 : Nat → Option EConfirmationType
  | 0 => some EConfirmationType.Unknown
  | 1 => some EConfirmationType.Generic
  | 2 => some EConfirmationType.Trade
  | 3 => some EConfirmationType.Market
  | 5 => some EConfirmationType.PhoneNumberChange
  | 6 => some EConfirmationType.AccountRecovery
  | _ => none

/-- Model of ConfirmationDetails (trade_offer_id : Option<i64>). -/
structure ConfirmationDetails where
  trade_offer_id : Option Int
deriving DecidableEq

/-- Model of Confirmation. -/
structure Confirmation where
  id : String
  key : String
  kind : EConfirmationType
  details : Option ConfirmationDetails
deriving DecidableEq

/-- Accumulating decimal parser behind u32::from_str: consumes digits,
failing on the first non-digit. -/
def digits_val : Nat → List Char → Option Nat
  | acc, [] => some acc
  | acc, c :: rest =>
    if c.isDigit then digits_val (acc * 10 + (c.toNat - 48)) rest else none

/-- Model of u32::from_str: an optional leading plus sign, then at
least one decimal digit, value at most 2^32 - 1; anything else is an
error (modelled as none). -/
def u32_from_str (s : List Char) : Option Nat :=
  let body := match s with
    | '+' :: rest => rest
    | _ => s
  match body with
  | [] => none
  | _ :: _ =>
    match digits_val 0 body with
    | none => none
    | some v => if v < 4294967296 then some v else none

/-- Model of EConfirmationType::from_str: u32::from_str(s).unwrap()
followed by from_u32(number).unwrap().  Either unwrap panics (none);
a successful run always wraps the variant in Ok.  The declared error
type of the Rust impl is Unit. -/
def EConfirmationType.from_str (s : List Char) :
    Option (Except Unit EConfirmationType) :=
  match u32_from_str s with
  | none => none
  | some number =>
    match EConfirmationType.from_u32 number with
    | none => none
    | some v => some (Except.ok v)

/-- The retain predicate of filter_by_trade_offer_ids: a confirmation
with details is kept iff its unwrapped trade_offer_id occurs in the id
list (the unwrap panics, none, when trade_offer_id is None); a
confirmation without details is dropped. -/
def keep_conf (trade_offer_ids : List Int) (c : Confirmation) : Option Bool :=
  match c.details with
  | some conf_details =>
    match conf_details.trade_offer_id with
    | none => none
    | some trade_offer_id =>
      some (trade_offer_ids.any (fun id => id == trade_offer_id))
  | none => some false

/-- Model of Confirmations::filter_by_trade_offer_ids: Vec::retain with
the keep_conf predicate; a panic while testing any element aborts
(none). -/
def filter_by_trade_offer_ids (trade_offer_ids : List Int) :
    List Confirmation → Option (List Confirmation)
  | [] => some []
  | c :: rest =>
    match keep_conf trade_offer_ids c with
    | none => none
    | some b =>
      match filter_by_trade_offer_ids trade_offer_ids rest with
      | none => none
      | some r => some (if b then c :: r else r)

/-! ### Theorems -/

theorem take_until_eq {pat s before after : List Char}
    (h : take_until pat s = some (before, after)) :
    s = before ++ after ∧ pat.isPrefixOf after = true := by
  induction s generalizing before with
  | nil =>
    unfold take_until at h
    split at h
    · rename_i hp
      injection h with h'
      injection h' with h1 h2
      subst h1; subst h2
      exact ⟨rfl, hp⟩
    · exact absurd h (by simp)
  | cons c rest ih =>
    unfold take_until at h
    split at h
    · rename_i hp
      injection h with h'
      injection h' with h1 h2
      subst h1; subst h2
      exact ⟨rfl, hp⟩
    · revert h
      match hrec : take_until pat rest with
      | none => intro h; exact absurd h (by simp)
      | some (b', a') =>
        intro h
        injection h with h'
        injection h' with h1 h2
        subst h1; subst h2
        rcases ih hrec with ⟨hb, hpre⟩
        exact ⟨by rw [hb]; rfl, hpre⟩

theorem take_until_single_not_mem {p : Char} {s before after : List Char}
    (h : take_until [p] s = some (before, after)) : p ∉ before := by
  induction s generalizing before with
  | nil =>
    unfold take_until at h
    split at h
    · injection h with h'
      injection h' with h1 _
      subst h1; simp
    · exact absurd h (by simp)
  | cons c rest ih =>
    unfold take_until at h
    split at h
    · injection h with h'
      injection h' with h1 _
      subst h1; simp
    · rename_i hp
      revert h
      match hrec : take_until [p] rest with
      | none => intro h; exact absurd h (by simp)
      | some (b', a') =>
        intro h
        injection h with h'
        injection h' with h1 h2
        subst h1
        subst h2
        intro hmem
        rcases List.mem_cons.mp hmem with hc | hb'
        · apply hp
          subst hc
          simp [List.isPrefixOf, List.isPrefixOf_iff_prefix]
        · exact ih hrec hb'

theorem tag_eq {pat s rest : List Char} (h : tag pat s = some rest) :
    s = pat ++ rest := by
  unfold tag at h
  split at h
  · rename_i hp
    injection h with h'
    rcases List.isPrefixOf_iff_prefix.mp hp with ⟨t, ht⟩
    subst ht
    rw [List.drop_left] at h'
    rw [h']
  · exact absurd h (by simp)

theorem is_a_eq {set s consumed rest : List Char}
    (h : is_a set s = some (consumed, rest)) :
    s = consumed ++ rest ∧ consumed ≠ [] := by
  simp only [is_a] at h
  split at h
  · exact absurd h (by simp)
  · rename_i hne
    injection h with h'
    injection h' with h1 h2
    subst h1; subst h2
    refine ⟨(List.takeWhile_append_dropWhile _ _).symm, ?_⟩
    simpa [List.isEmpty_iff] using hne

theorem extract_member_length {s decl rest : List Char}
    (h : extract_member s = some (decl, rest)) : rest.length < s.length := by
  unfold extract_member at h
  cases hcl : clear_lines_tab s with
  | none => rw [hcl] at h; exact absurd h (by simp)
  | some p =>
    obtain ⟨ws, rest1⟩ := p
    rw [hcl] at h
    dsimp only at h
    cases htu : take_until [';'] rest1 with
    | none => rw [htu] at h; exact absurd h (by simp)
    | some q =>
      obtain ⟨decl', rem⟩ := q
      rw [htu] at h
      injection h with h'
      injection h' with h1 h2
      subst h2
      rcases is_a_eq hcl with ⟨hs, hws⟩
      rcases take_until_eq htu with ⟨hr1, hpre⟩
      rcases List.isPrefixOf_iff_prefix.mp hpre with ⟨t, ht⟩
      have hws' : 1 ≤ ws.length := by
        cases ws with
        | nil => exact absurd rfl hws
        | cons a b => simp
      have : s.length = ws.length + rest1.length := by rw [hs]; simp
      have : rest1.length = decl'.length + rem.length := by rw [hr1]; simp
      have hrem : rem = ';' :: t := by rw [← ht]; rfl
      have : rem.length = 1 + t.length := by rw [hrem]; simp; omega
      have hdrop : (rem.drop 1).length = t.length := by rw [hrem]; simp
      omega

theorem extract_members_fuel_stable {f1 f2 : Nat} {s : List Char}
    (h1 : s.length ≤ f1) (h2 : s.length ≤ f2) :
    extract_members_fuel f1 s = extract_members_fuel f2 s := by
  induction f1 generalizing f2 s with
  | zero =>
    have : s = [] := List.eq_nil_of_length_eq_zero (by omega)
    subst this
    cases f2 with
    | zero => rfl
    | succ m => simp [extract_members_fuel, extract_member, clear_lines_tab, is_a]
  | succ k ih =>
    cases f2 with
    | zero =>
      have : s = [] := List.eq_nil_of_length_eq_zero (by omega)
      subst this
      simp [extract_members_fuel, extract_member, clear_lines_tab, is_a]
    | succ m =>
      simp only [extract_members_fuel]
      cases hem : extract_member s with
      | none => rfl
      | some p =>
        obtain ⟨decl, rest⟩ := p
        have hlt := extract_member_length hem
        dsimp only
        rw [@ih m rest (by omega) (by omega)]

theorem extract_class_code_length {stream block rest name : List Char}
    (h : extract_class_code stream = some (some (block, rest, name))) :
    rest.length + 6 ≤ stream.length := by
  unfold extract_class_code at h
  cases h1 : take_until CLASS stream with
  | none => rw [h1] at h; exact absurd h (by simp)
  | some p =>
    obtain ⟨pre, at_class⟩ := p
    rw [h1] at h
    dsimp only at h
    cases h2 : tag CLASS at_class with
    | none => rw [h2] at h; exact absurd h (by simp)
    | some after_kw =>
      rw [h2] at h
      dsimp only at h
      cases h3 : take_until CLASS_EOF after_kw with
      | none => rw [h3] at h; exact absurd h (by simp)
      | some q =>
        obtain ⟨block', rest'⟩ := q
        rw [h3] at h
        dsimp only at h
        cases h4 : take_until (['<'] : List Char) block' with
        | none => rw [h4] at h; exact absurd h (by simp)
        | some r =>
          obtain ⟨nm, after_lt⟩ := r
          rw [h4] at h
          simp only [Option.some.injEq, Prod.mk.injEq] at h
          obtain ⟨hb, hr, hn⟩ := h
          subst hb; subst hr
          rcases take_until_eq h1 with ⟨hs, -⟩
          have hac : at_class = CLASS ++ after_kw := tag_eq h2
          rcases take_until_eq h3 with ⟨hak, -⟩
          have hc6 : CLASS.length = 6 := rfl
          have l1 : stream.length = pre.length + at_class.length := by rw [hs]; simp
          have l2 : at_class.length = CLASS.length + after_kw.length := by rw [hac]; simp
          have l3 : after_kw.length = block'.length + rest'.length := by rw [hak]; simp
          omega

theorem class_parsesF_stable {f1 f2 : Nat} {s : List Char}
    (h1 : s.length < f1) (h2 : s.length < f2) :
    class_parsesF f1 s = class_parsesF f2 s := by
  induction f1 generalizing f2 s with
  | zero => omega
  | succ k ih =>
    cases f2 with
    | zero => omega
    | succ m =>
      simp only [class_parsesF]
      cases hec : extract_class_code s with
      | none => rfl
      | some o =>
        cases o with
        | none => rfl
        | some t =>
          obtain ⟨block, rest, name⟩ := t
          have hlen := extract_class_code_length hec
          dsimp only
          cases extract_attr_lines block with
          | none => rfl
          | some body =>
            dsimp only
            cases parse_stmts (extract_members_exhaustive body) with
            | none => rfl
            | some stmts =>
              dsimp only
              rw [@ih m rest (by omega) (by omega)]

theorem mainLoopF_eq_class_parsesF (fuel : Nat) :
    ∀ (g : Graph) (s : List Char),
    mainLoopF fuel g s = (class_parsesF fuel s).map (buildGraph g) := by
  induction fuel with
  | zero => intro g s; rfl
  | succ k ih =>
    intro g s
    simp only [mainLoopF, class_parsesF]
    cases extract_class_code s with
    | none => rfl
    | some o =>
      cases o with
      | none => rfl
      | some t =>
        obtain ⟨block, rest, name⟩ := t
        dsimp only
        cases extract_attr_lines block with
        | none => rfl
        | some body =>
          dsimp only
          cases parse_stmts (extract_members_exhaustive body) with
          | none => rfl
          | some stmts =>
            dsimp only
            rw [ih (addClass g name stmts) rest]
            cases class_parsesF k rest with
            | none => rfl
            | some L => rfl

theorem mainGraph_eq (doc : List Char) :
    mainGraph doc = (class_parses doc).map (buildGraph entryGraph) := by
  unfold mainGraph class_parses
  exact mainLoopF_eq_class_parsesF (doc.length + 1) entryGraph doc

theorem seqFrom_length (start n : Nat) : (seqFrom start n).length = n := by
  induction n generalizing start with
  | zero => rfl
  | succ k ih => simp [seqFrom, ih]

theorem seqFrom_append (start m n : Nat) :
    seqFrom start (m + n) = seqFrom start m ++ seqFrom (start + m) n := by
  induction m generalizing start with
  | zero => simp [seqFrom]
  | succ k ih =>
    have : start + (k + 1) = (start + 1) + k := by omega
    simp [seqFrom, Nat.succ_add, ih (start + 1), this]

theorem addFieldNodes_spec (classNode : Nat) (strs : List (List Char)) :
    ∀ g : Graph, addFieldNodes g classNode strs =
      ⟨g.nodes ++ strs,
       g.edges ++ (seqFrom g.nodes.length strs.length).map (fun t => (classNode, t))⟩ := by
  induction strs with
  | nil => intro g; simp [addFieldNodes, seqFrom]
  | cons c rest ih =>
    intro g
    show addFieldNodes ⟨g.nodes ++ [c], g.edges ++ [(classNode, g.nodes.length)]⟩
      classNode rest = _
    rw [ih]
    simp [seqFrom, List.append_assoc]

theorem processStmts_spec (classNode : Nat) (stmts : List (List (List Char))) :
    ∀ g : Graph, processStmts g classNode stmts =
      ⟨g.nodes ++ stmts.flatten,
       g.edges ++ (seqFrom g.nodes.length stmts.flatten.length).map
         (fun t => (classNode, t))⟩ := by
  induction stmts with
  | nil => intro g; cases g; simp [processStmts, seqFrom]
  | cons stmt rest ih =>
    intro g
    show processStmts (addFieldNodes g classNode stmt) classNode rest = _
    rw [addFieldNodes_spec, ih]
    simp [List.flatten, seqFrom_append, List.append_assoc]

theorem addClass_spec (g : Graph) (name : List Char) (stmts : List (List (List Char))) :
    addClass g name stmts =
      ⟨g.nodes ++ name :: stmts.flatten,
       g.edges ++ (0, g.nodes.length) ::
         (seqFrom (g.nodes.length + 1) stmts.flatten.length).map
           (fun t => (g.nodes.length, t))⟩ := by
  show processStmts ⟨g.nodes ++ [name], g.edges ++ [(0, g.nodes.length)]⟩
    g.nodes.length stmts = _
  rw [processStmts_spec]
  simp [List.append_assoc]

theorem buildGraph_spec (L : List ClassParse) :
    ∀ g : Graph, buildGraph g L =
      ⟨g.nodes ++ classesFlat L, g.edges ++ classEdges g.nodes.length L⟩ := by
  induction L with
  | nil => intro g; simp [buildGraph, classesFlat, classEdges]
  | cons p rest ih =>
    intro g
    obtain ⟨name, stmts⟩ := p
    show buildGraph (addClass g name stmts) rest = _
    rw [ih, addClass_spec]
    simp [classesFlat, classEdges, List.append_assoc]
    congr 1
    omega

theorem rootPairs_length (L : List ClassParse) :
    ∀ len, (rootPairs len L).length = L.length := by
  induction L with
  | nil => intro len; rfl
  | cons p rest ih =>
    intro len
    obtain ⟨name, stmts⟩ := p
    simp [rootPairs, ih]

theorem seqFrom_map_filter_ne (cn start n : Nat) (h : cn ≠ 0) :
    ((seqFrom start n).map (fun t => (cn, t))).filter (fun e => e.1 == 0) = [] := by
  induction n generalizing start with
  | zero => rfl
  | succ k ih =>
    simp only [seqFrom, List.map_cons, List.filter_cons]
    have : ((cn, start).1 == 0) = false := by simpa using h
    rw [this]
    exact ih (start + 1)

theorem classEdges_filter_root (L : List ClassParse) :
    ∀ len, 1 ≤ len →
    (classEdges len L).filter (fun e => e.1 == 0) = rootPairs len L := by
  induction L with
  | nil => intro len _; rfl
  | cons p rest ih =>
    intro len hlen
    obtain ⟨name, stmts⟩ := p
    simp only [classEdges, rootPairs, List.filter_cons, List.filter_append]
    have h0 : (((0 : Nat), len).1 == 0) = true := by simp
    rw [h0]
    rw [seqFrom_map_filter_ne len (len + 1) stmts.flatten.length (by omega)]
    rw [ih (len + 1 + stmts.flatten.length) (by omega)]
    simp

theorem getElem?_append_middle {α : Type} (pre : List α) (x : α) (tail : List α) :
    (pre ++ x :: tail)[pre.length]? = some x := by
  rw [List.getElem?_append_right (by omega)]
  simp

theorem rootPairs_labels (L : List ClassParse) :
    ∀ pre : List (List Char),
    (rootPairs pre.length L).map (fun e => (pre ++ classesFlat L)[e.2]?) =
      L.map (fun p => some p.1) := by
  induction L with
  | nil => intro pre; rfl
  | cons p rest ih =>
    intro pre
    obtain ⟨name, stmts⟩ := p
    simp only [rootPairs, classesFlat, List.map_cons]
    congr 1
    case _ =>
      exact getElem?_append_middle pre name (stmts.flatten ++ classesFlat rest)
    case _ =>
      have hpre : (pre ++ name :: stmts.flatten).length =
          pre.length + 1 + stmts.flatten.length := by simp; omega
      have hassoc : pre ++ ((name :: stmts.flatten) ++ classesFlat rest) =
          (pre ++ (name :: stmts.flatten)) ++ classesFlat rest :=
        (List.append_assoc _ _ _).symm
      rw [hassoc, ← hpre]
      exact ih (pre ++ name :: stmts.flatten)

theorem charOfNat_toNat {n : Nat} (h : n < 55296) : (Char.ofNat n).toNat = n := by
  have hv : Nat.isValidChar n := Or.inl h
  simp only [Char.ofNat, hv, dite_true]
  simp only [Char.ofNatAux, Char.toNat, UInt32.toNat, BitVec.toNat_ofNatLt]

theorem lower_char_toNat {c : Char} (h : is_upper_char c = true) :
    (lower_char c).toNat = c.toNat + 32 := by
  have h32 : c.toNat + 32 < 55296 := by
    simp only [is_upper_char, Bool.and_eq_true, decide_eq_true_eq] at h
    omega
  simp [lower_char, h, charOfNat_toNat h32]

theorem lower_char_stable {c : Char} (h : is_alnum_char c = true) :
    stable_char (lower_char c) = true ∧ lower_char c ≠ '_' := by
  cases hup : is_upper_char c with
  | false =>
    have hl : lower_char c = c := by simp [lower_char, hup]
    rw [hl]
    refine ⟨by simp [stable_char, h, hup], ?_⟩
    intro heq
    rw [heq] at h
    exact absurd h (by decide)
  | true =>
    have hE := lower_char_toNat hup
    simp only [is_upper_char, Bool.and_eq_true, decide_eq_true_eq] at hup
    constructor
    · simp only [stable_char, is_alnum_char, is_upper_char, hE, Bool.and_eq_true,
        Bool.or_eq_true, Bool.not_eq_true', Bool.and_eq_false_iff,
        decide_eq_true_eq, decide_eq_false_iff_not]
      omega
    · intro heq
      have h2 := congrArg Char.toNat heq
      rw [hE] at h2
      have h95 : ('_' : Char).toNat = 95 := rfl
      omega

theorem stable_char_not_underscore {c : Char} (h : stable_char c = true) : c ≠ '_' := by
  intro heq
  rw [heq] at h
  exact absurd h (by decide)

theorem stable_char_lower_eq {c : Char} (h : stable_char c = true) : lower_char c = c := by
  simp only [stable_char, Bool.and_eq_true, Bool.not_eq_true'] at h
  simp [lower_char, h.2]

theorem snake_aux_isNF (s : List Char) :
    ∀ fresh, isNF (!fresh) (snake_aux fresh s) = true := by
  induction s with
  | nil => intro fresh; rfl
  | cons c rest ih =>
    intro fresh
    unfold snake_aux
    cases han : is_alnum_char c with
    | false =>
      rw [if_pos rfl]
      cases fresh with
      | true => simpa using ih true
      | false =>
        show isNF true ('_' :: snake_aux true rest) = true
        unfold isNF
        rw [if_pos rfl]
        simpa using ih true
    | true =>
      rw [if_neg (by simp)]
      rcases lower_char_stable han with ⟨hst, hne⟩
      cases hup : is_upper_char c with
      | true =>
        rw [if_pos rfl]
        cases fresh with
        | true =>
          show isNF false (lower_char c :: snake_aux false rest) = true
          unfold isNF
          rw [if_neg hne, hst]
          simpa using ih false
        | false =>
          show isNF true ('_' :: lower_char c :: snake_aux false rest) = true
          unfold isNF
          rw [if_pos rfl]
          show (true && isNF false (lower_char c :: snake_aux false rest)) = true
          unfold isNF
          rw [if_neg hne, hst]
          simpa using ih false
      | false =>
        rw [if_neg (by simp)]
        show isNF (!fresh) (lower_char c :: snake_aux false rest) = true
        unfold isNF
        rw [if_neg hne, hst]
        simpa using ih false

theorem isNF_fixed (s : List Char) :
    ∀ allowUnd, isNF allowUnd s = true → snake_aux (!allowUnd) s = s := by
  induction s with
  | nil => intro allowUnd _; rfl
  | cons c rest ih =>
    intro allowUnd h
    unfold isNF at h
    by_cases hc : c = '_'
    · rw [if_pos hc] at h
      simp only [Bool.and_eq_true] at h
      obtain ⟨hA, hrest⟩ := h
      subst hc
      have hau : allowUnd = true := hA
      subst hau
      show snake_aux false ('_' :: rest) = '_' :: rest
      unfold snake_aux
      rw [if_pos (by decide)]
      have := ih false hrest
      simpa using congrArg (List.cons '_') this
    · rw [if_neg hc] at h
      simp only [Bool.and_eq_true] at h
      obtain ⟨hst, hrest⟩ := h
      have han : is_alnum_char c = true := by
        simp only [stable_char, Bool.and_eq_true] at hst
        exact hst.1
      have hup : is_upper_char c = false := by
        simp only [stable_char, Bool.and_eq_true, Bool.not_eq_true'] at hst
        exact hst.2
      unfold snake_aux
      rw [if_neg (by simp [han]), if_neg (by simp [hup])]
      rw [stable_char_lower_eq hst]
      have := ih true hrest
      simpa using congrArg (List.cons c) this

theorem parse_stmt_length_two {stmt : List Char} {s : List (List Char)}
    (h : parse_stmt stmt = some s) : s.length = 2 := by
  unfold parse_stmt at h
  cases hsp : split_words_to_vec stmt with
  | nil => rw [hsp] at h; exact absurd h (by simp)
  | cons t0 ts =>
    cases ts with
    | nil => rw [hsp] at h; exact absurd h (by simp)
    | cons t1 ts' =>
      rw [hsp] at h
      injection h with h'
      rw [← h']
      rfl

theorem parse_stmts_forall2 {members : List (List Char)}
    {stmts : List (List (List Char))} (h : parse_stmts members = some stmts) :
    List.Forall₂ (fun mem s => parse_stmt mem = some s) members stmts := by
  induction members generalizing stmts with
  | nil =>
    unfold parse_stmts at h
    injection h with h'
    rw [← h']
    exact List.Forall₂.nil
  | cons mem rest ih =>
    unfold parse_stmts at h
    cases hp : parse_stmt mem with
    | none => rw [hp] at h; exact absurd h (by simp)
    | some s =>
      rw [hp] at h
      dsimp only at h
      cases hr : parse_stmts rest with
      | none => rw [hr] at h; exact absurd h (by simp)
      | some r =>
        rw [hr] at h
        injection h with h'
        rw [← h']
        exact List.Forall₂.cons hp (ih hr)

theorem parse_stmts_flatten_length {members : List (List Char)}
    {stmts : List (List (List Char))} (h : parse_stmts members = some stmts) :
    stmts.flatten.length = 2 * members.length := by
  induction members generalizing stmts with
  | nil =>
    unfold parse_stmts at h
    injection h with h'
    rw [← h']
    rfl
  | cons mem rest ih =>
    unfold parse_stmts at h
    cases hp : parse_stmt mem with
    | none => rw [hp] at h; exact absurd h (by simp)
    | some s =>
      rw [hp] at h
      dsimp only at h
      cases hr : parse_stmts rest with
      | none => rw [hr] at h; exact absurd h (by simp)
      | some r =>
        rw [hr] at h
        injection h with h'
        rw [← h']
        have h2 := parse_stmt_length_two hp
        have htail := ih hr
        simp only [List.flatten_cons, List.length_append, List.length_cons, h2, htail]
        omega

theorem seqFrom_map_get {α : Type} (l : List α) :
    ∀ pre : List α,
    (seqFrom pre.length l.length).map (fun t => (pre ++ l)[t]?) = l.map some := by
  induction l with
  | nil => intro pre; rfl
  | cons a rest ih =>
    intro pre
    simp only [List.length_cons, seqFrom, List.map_cons]
    congr 1
    case _ => exact getElem?_append_middle pre a rest
    case _ =>
      have hassoc : pre ++ a :: rest = (pre ++ [a]) ++ rest := by simp
      have hlen : pre.length + 1 = (pre ++ [a]).length := by simp
      rw [hassoc, hlen]
      exact ih (pre ++ [a])

theorem seqFrom_map_filter_self (cn start n : Nat) :
    ((seqFrom start n).map (fun t => (cn, t))).filter (fun e => e.1 == cn) =
      (seqFrom start n).map (fun t => (cn, t)) := by
  induction n generalizing start with
  | zero => rfl
  | succ k ih =>
    simp only [seqFrom, List.map_cons, List.filter_cons]
    have : (((cn, start) : Nat × Nat).1 == cn) = true := by simp
    rw [this, ih (start + 1), if_pos rfl]

theorem split_words_no_space {s : List Char} (h : ' ' ∉ s) :
    split_words_to_vec s = [s] := by
  induction s with
  | nil => rfl
  | cons c rest ih =>
    have hc : c ≠ ' ' := fun he => h (by rw [he]; exact List.mem_cons_self _ _)
    have hrest : ' ' ∉ rest := fun hm => h (List.mem_cons_of_mem _ hm)
    unfold split_words_to_vec
    rw [if_neg hc, ih hrest]

theorem split_words_append {t nm : List Char} (h : ' ' ∉ t) :
    split_words_to_vec (t ++ ' ' :: nm) = t :: split_words_to_vec nm := by
  induction t with
  | nil =>
    show split_words_to_vec (' ' :: nm) = [] :: split_words_to_vec nm
    conv_lhs => rw [split_words_to_vec]
    rw [if_pos rfl]
  | cons c rest ih =>
    have hc : c ≠ ' ' := fun he => h (by rw [he]; exact List.mem_cons_self _ _)
    have hrest : ' ' ∉ rest := fun hm => h (List.mem_cons_of_mem _ hm)
    show split_words_to_vec (c :: (rest ++ ' ' :: nm)) = (c :: rest) :: split_words_to_vec nm
    conv_lhs => rw [split_words_to_vec]
    rw [if_neg hc, ih hrest]

theorem replacen_nonnum_all {s : List Char} :
    ∀ k : Nat, (s.filter (fun c => !char_is_numeric c)).length ≤ k →
    replacen_nonnum s k = s.filter (fun c => char_is_numeric c) := by
  induction s with
  | nil => intro k _; simp [replacen_nonnum]
  | cons c rest ih =>
    intro k hk
    cases hn : char_is_numeric c with
    | true =>
      have hfe : (c :: rest).filter (fun c => !char_is_numeric c) =
          rest.filter (fun c => !char_is_numeric c) := by
        simp [List.filter_cons, hn]
      rw [hfe] at hk
      cases k with
      | zero =>
        have hnil : rest.filter (fun c => !char_is_numeric c) = [] :=
          List.length_eq_zero.mp (by omega)
        have hall : ∀ a ∈ rest, char_is_numeric a = true := by
          intro a ha
          have := List.filter_eq_nil_iff.mp hnil a ha
          simpa using this
        have hself : (c :: rest).filter (fun c => char_is_numeric c) = c :: rest := by
          rw [List.filter_eq_self]
          intro a ha
          rcases List.mem_cons.mp ha with h1 | h2
          · rw [h1]; exact hn
          · exact hall a h2
        show c :: rest = (c :: rest).filter (fun c => char_is_numeric c)
        rw [hself]
      | succ m =>
        show (if char_is_numeric c then c :: replacen_nonnum rest (m + 1)
          else replacen_nonnum rest m) = _
        rw [if_pos (by simp [hn])]
        rw [ih (m + 1) hk]
        simp [List.filter_cons, hn]
    | false =>
      have hfe : ((c :: rest).filter (fun c => !char_is_numeric c)).length =
          (rest.filter (fun c => !char_is_numeric c)).length + 1 := by
        simp [List.filter_cons, hn]
      rw [hfe] at hk
      cases k with
      | zero => omega
      | succ m =>
        show (if char_is_numeric c then c :: replacen_nonnum rest (m + 1)
          else replacen_nonnum rest m) = _
        rw [if_neg (by simp [hn])]
        rw [ih m (by omega)]
        simp [List.filter_cons, hn]

/-- Helper: every statement parsed by parse_stmts is a two-element
(name, wire-type) pair. -/
theorem parse_stmts_all_two {members : List (List Char)}
    {stmts : List (List (List Char))} (h : parse_stmts members = some stmts) :
    ∀ s ∈ stmts, s.length = 2 := by
  induction members generalizing stmts with
  | nil =>
    unfold parse_stmts at h
    injection h with h'
    rw [← h']
    intro s hs
    exact absurd hs (by simp)
  | cons mem rest ih =>
    unfold parse_stmts at h
    cases hp : parse_stmt mem with
    | none => rw [hp] at h; exact absurd h (by simp)
    | some s0 =>
      rw [hp] at h
      dsimp only at h
      cases hr : parse_stmts rest with
      | none => rw [hr] at h; exact absurd h (by simp)
      | some r =>
        rw [hr] at h
        injection h with h'
        rw [← h']
        intro s hs
        rcases List.mem_cons.mp hs with h1 | h2
        · rw [h1]; exact parse_stmt_length_two hp
        · exact ih hr s h2

/-- C3: on the class body CRLF-tab ulong giftId; byte giftType;
uint accountId; member extraction yields exactly the three
declarations, in order and without trailing semicolons, and
normalization yields the pairs (gift_id, u64), (gift_type, u8),
(account_id, u32). -/
theorem c3_member_extraction_end_to_end :
    extract_members_exhaustive
        (chars "\r\n\tulong giftId;\r\n\tbyte giftType;\r\n\tuint accountId;\r\n") =
      [chars "ulong giftId", chars "byte giftType", chars "uint accountId"] ∧
    parse_stmts [chars "ulong giftId", chars "byte giftType", chars "uint accountId"] =
      some [[chars "gift_id", chars "u64"], [chars "gift_type", chars "u8"],
        [chars "account_id", chars "u32"]] :=
  ⟨rfl, rfl⟩

/-- C6: match_type maps the seven table entries and returns every
other token unchanged. -/
theorem c6_match_type_table :
    match_type (chars "ulong") = chars "u64" ∧
    match_type (chars "long") = chars "i64" ∧
    match_type (chars "uint") = chars "u32" ∧
    match_type (chars "int") = chars "i32" ∧
    match_type (chars "ushort") = chars "u16" ∧
    match_type (chars "short") = chars "i16" ∧
    match_type (chars "byte") = chars "u8" ∧
    ∀ s : List Char,
      s ∉ [chars "ulong", chars "long", chars "uint", chars "int",
        chars "ushort", chars "short", chars "byte"] →
      match_type s = s := by
  refine ⟨rfl, rfl, rfl, rfl, rfl, rfl, rfl, ?_⟩
  intro s hs
  simp only [List.mem_cons, List.mem_singleton, not_or] at hs
  obtain ⟨h1, h2, h3, h4, h5, h6, h7, -⟩ := hs
  unfold match_type
  rw [if_neg h1, if_neg h2, if_neg h3, if_neg h4, if_neg h5, if_neg h6, if_neg h7]

/-- C6 witness: the unknown token steamidmarshal passes through. -/
theorem c6_match_type_table_witness :
    match_type (chars "steamidmarshal") = chars "steamidmarshal" :=
  c6_match_type_table.2.2.2.2.2.2.2 (chars "steamidmarshal") (by decide)

/-- C8: snake-case normalization is deterministic and idempotent, and
maps giftId to gift_id and AccountId to account_id. -/
theorem c8_snake_case_idempotent :
    (∀ x : List Char, to_snake_case (to_snake_case x) = to_snake_case x) ∧
    to_snake_case (chars "giftId") = chars "gift_id" ∧
    to_snake_case (chars "AccountId") = chars "account_id" := by
  refine ⟨?_, rfl, rfl⟩
  intro x
  have h1 : isNF false (snake_aux true x) = true := by
    have := snake_aux_isNF x true
    simpa using this
  have h2 := isNF_fixed (snake_aux true x) false h1
  show snake_aux true (snake_aux true x) = snake_aux true x
  simpa using h2

/-- C4 counterexample: for a non-generic class whose body holds the
first less-than sign of the block (here inside the member byte<4>),
the extracted class name runs past the opening brace into the body, so
it is not the header text before the brace. -/
theorem c4_counterexample_name_crosses_brace :
    extract_class_code (chars "class Foo \x7b\n\tbyte<4> f;\n\x7d;") =
      some (some (chars "Foo \x7b\n\tbyte<4> f;\n", chars "\x7d;",
        chars "Foo \x7b\n\tbyte")) ∧
    '\x7b' ∈ chars "Foo \x7b\n\tbyte" :=
  ⟨rfl, by decide⟩

/-- C4 amended: for every class block found by the extractor, the
extracted class name is the text of the captured block (header and
body taken together) up to the first less-than sign anywhere in the
block: the name never holds a less-than sign and the block continues
with one right after the name; when the header carries a generic
parameter list this discards it, but a less-than sign after the
opening brace makes the name include the brace and body text, and a
block with no less-than sign at all makes the extractor panic. -/
theorem c4_amended_name_up_to_first_lt :
    (∀ stream block rest name : List Char,
      extract_class_code stream = some (some (block, rest, name)) →
      '<' ∉ name ∧ ∃ t : List Char, block = name ++ '<' :: t) ∧
    extract_class_code (chars "class Foo \x7d;") = some none := by
  constructor
  · intro stream block rest name h
    unfold extract_class_code at h
    cases h1 : take_until CLASS stream with
    | none => rw [h1] at h; exact absurd h (by simp)
    | some p =>
      obtain ⟨pre, at_class⟩ := p
      rw [h1] at h
      dsimp only at h
      cases h2 : tag CLASS at_class with
      | none => rw [h2] at h; exact absurd h (by simp)
      | some after_kw =>
        rw [h2] at h
        dsimp only at h
        cases h3 : take_until CLASS_EOF after_kw with
        | none => rw [h3] at h; exact absurd h (by simp)
        | some q =>
          obtain ⟨block', rest'⟩ := q
          rw [h3] at h
          dsimp only at h
          cases h4 : take_until (['<'] : List Char) block' with
          | none => rw [h4] at h; exact absurd h (by simp)
          | some r =>
            obtain ⟨name', after_lt⟩ := r
            rw [h4] at h
            simp only [Option.some.injEq, Prod.mk.injEq] at h
            obtain ⟨hb, hr, hn⟩ := h
            subst hb; subst hr; subst hn
            refine ⟨take_until_single_not_mem h4, ?_⟩
            rcases take_until_eq h4 with ⟨hbl, hpre⟩
            rcases List.isPrefixOf_iff_prefix.mp hpre with ⟨t, ht⟩
            refine ⟨t, ?_⟩
            rw [hbl, ← ht]
            rfl
  · rfl

/-- C4 witness: a generic class header gives the header name before
the parameter list. -/
theorem c4_amended_witness :
    '<' ∉ chars "MsgFoo" ∧
    ∃ t : List Char, chars "MsgFoo<EMsg> \x7b" = chars "MsgFoo" ++ '<' :: t :=
  c4_amended_name_up_to_first_lt.1 (chars "class MsgFoo<EMsg> \x7b\x7d;")
    (chars "MsgFoo<EMsg> \x7b") (chars "\x7d;") (chars "MsgFoo") (by decide)

/-- C5 counterexample: a type token with eleven non-digit characters
before the array marker: replacen's limit of 10 leaves the eleventh
non-digit in place, so the computed size string is not the token with
all non-digit characters stripped, and the emitted wire type carries
the leftover characters. -/
theorem c5_counterexample_replacen_limit :
    is_array (chars "aaaaaaaaaaa<5>") = true ∧
    array_extract_size (chars "aaaaaaaaaaa<5>") = chars "a<5>" ∧
    array_extract_size (chars "aaaaaaaaaaa<5>") ≠
      (chars "aaaaaaaaaaa<5>").filter (fun c => char_is_numeric c) ∧
    parse_stmt (chars "aaaaaaaaaaa<5> x") = some [chars "x", chars "[u8; a<5>]"] :=
  ⟨rfl, rfl, by decide, rfl⟩

/-- C5 amended: a token holding a less-than or greater-than sign is
treated as a fixed-size byte array whose size string is the token with
its first at most ten non-digit characters removed — equal to the
token's digits whenever the token has at most ten non-digit characters
— and the wire type is that size string wrapped in a u8 array type;
byte<10> is an array of size 10 with wire type a ten-element u8 array,
while byte is not an array. -/
theorem c5_amended_array_detection :
    (∀ t : List Char, (t.filter (fun c => !char_is_numeric c)).length ≤ 10 →
      array_extract_size t = t.filter (fun c => char_is_numeric c)) ∧
    (∀ t nm : List Char, is_array t = true → ' ' ∉ t → ' ' ∉ nm →
      parse_stmt (t ++ ' ' :: nm) =
        some [to_snake_case nm,
          chars "[u8; " ++ array_extract_size t ++ chars "]"]) ∧
    is_array (chars "byte<10>") = true ∧
    array_extract_size (chars "byte<10>") = chars "10" ∧
    is_array (chars "byte") = false := by
  refine ⟨?_, ?_, rfl, rfl, rfl⟩
  · intro t ht
    exact replacen_nonnum_all 10 ht
  · intro t nm hat hst hsn
    unfold parse_stmt
    rw [split_words_append hst, split_words_no_space hsn]
    dsimp only
    rw [if_pos hat]

/-- C5 witness: byte<10> has six non-digit characters, so the limited
strip equals the digit filter, and a declaration using it produces the
ten-element u8 array wire type. -/
theorem c5_amended_witness :
    array_extract_size (chars "byte<10>") =
      (chars "byte<10>").filter (fun c => char_is_numeric c) ∧
    parse_stmt (chars "byte<10>" ++ ' ' :: chars "giftType") =
      some [to_snake_case (chars "giftType"),
        chars "[u8; " ++ array_extract_size (chars "byte<10>") ++ chars "]"] :=
  ⟨c5_amended_array_detection.1 (chars "byte<10>") (by decide),
   c5_amended_array_detection.2.1 (chars "byte<10>") (chars "giftType")
     (by decide) (by decide) (by decide)⟩

/-- C7 counterexample: a malformed single-token declaration does not
leave the remaining declarations processed — parse_stmts aborts the
whole run (the stmt_tokens[1] index panics) instead of skipping it. -/
theorem c7_counterexample_malformed_panics :
    parse_stmts [chars "abc", chars "ulong giftId"] = none ∧
    parse_stmts [chars "abc", chars "ulong giftId"] ≠
      some [[chars "gift_id", chars "u64"]] :=
  ⟨rfl, by decide⟩

/-- C7 amended: a statement with no leading whitespace, newline or tab
run before it is never extracted (including at the end of input), but
an extracted declaration that is not of the type-space-name shape — a
token list with no space — is not silently dropped: it panics and
aborts the processing of all statements. -/
theorem c7_amended_malformed_handling :
    (∀ (c : Char) (s : List Char), ¬(c = '\r' ∨ c = '\n' ∨ c = '\t') →
      extract_member (c :: s) = none) ∧
    extract_member [] = none ∧
    (∀ (stmt : List Char) (stmts : List (List Char)), ' ' ∉ stmt →
      parse_stmts (stmt :: stmts) = none) := by
  refine ⟨?_, rfl, ?_⟩
  · intro c s hc
    push_neg at hc
    obtain ⟨h1, h2, h3⟩ := hc
    have hpred : ((chars "\r\n\t").contains c) = false := by
      show (['\r', '\n', '\t'] : List Char).contains c = false
      simp [List.contains_cons, h1, h2, h3]
    have hmem : c ∉ chars "\r\n\t" := by
      show c ∉ ['\r', '\n', '\t']
      simp [h1, h2, h3]
    have hcl : clear_lines_tab (c :: s) = none := by
      unfold clear_lines_tab
      simp [is_a, List.takeWhile_cons, hpred, hmem]
    unfold extract_member
    rw [hcl]
  · intro stmt stmts hst
    unfold parse_stmts
    have hps : parse_stmt stmt = none := by
      unfold parse_stmt
      rw [split_words_no_space hst]
    rw [hps]

/-- C7 witness: an unindented declaration is not extracted; a one-token
statement aborts parsing. -/
theorem c7_amended_witness :
    extract_member ('u' :: chars "long giftId;") = none ∧
    parse_stmts [chars "abcdef"] = none :=
  ⟨c7_amended_malformed_handling.1 'u' (chars "long giftId;") (by decide),
   c7_amended_malformed_handling.2.2 (chars "abcdef") [] (by decide)⟩

/-- C1: for a class whose m member declarations all parse, main's
per-class graph insertion gives the class node exactly 2m outgoing
edges, in strict alternating order: the edge targets, read in
insertion order, are labelled with the flattened
(snake-cased name, wire-type) pairs of the declarations in source
order, each parsed pair being a two-element list, so that pairing the
children two at a time recovers the fields. -/
theorem c1_class_node_alternating_edges
    (g : Graph) (name : List Char) (members : List (List Char))
    (stmts : List (List (List Char)))
    (hp : parse_stmts members = some stmts)
    (hwf : ∀ e ∈ g.edges, e.1 < g.nodes.length)
    (hne : 1 ≤ g.nodes.length) :
    ((addClass g name stmts).edges.filter
        (fun e => e.1 == g.nodes.length)).length = 2 * members.length ∧
    ((addClass g name stmts).edges.filter
        (fun e => e.1 == g.nodes.length)).map
          (fun e => (addClass g name stmts).nodes[e.2]?) =
      stmts.flatten.map some ∧
    List.Forall₂ (fun mem s => parse_stmt mem = some s) members stmts ∧
    (∀ s ∈ stmts, s.length = 2) := by
  have hspec := addClass_spec g name stmts
  have hfilter : (addClass g name stmts).edges.filter
      (fun e => e.1 == g.nodes.length) =
      (seqFrom (g.nodes.length + 1) stmts.flatten.length).map
        (fun t => (g.nodes.length, t)) := by
    rw [hspec]
    dsimp only
    rw [List.filter_append]
    have hold : g.edges.filter (fun e => e.1 == g.nodes.length) = [] := by
      rw [List.filter_eq_nil_iff]
      intro e he
      have := hwf e he
      simp only [beq_iff_eq]
      omega
    rw [hold, List.filter_cons]
    have h0 : ((((0 : Nat), g.nodes.length) : Nat × Nat).1 == g.nodes.length) =
        false := by
      rw [beq_eq_false_iff_ne]
      omega
    rw [h0]
    simp only [Bool.false_eq_true, if_neg (by simp : ¬False)]
    rw [seqFrom_map_filter_self]
    rfl
  refine ⟨?_, ?_, parse_stmts_forall2 hp, parse_stmts_all_two hp⟩
  · rw [hfilter]
    rw [List.length_map, seqFrom_length]
    exact parse_stmts_flatten_length hp
  · rw [hfilter, hspec]
    dsimp only
    rw [List.map_map]
    have hassoc : g.nodes ++ name :: stmts.flatten =
        (g.nodes ++ [name]) ++ stmts.flatten := by simp
    have hpre : g.nodes.length + 1 = (g.nodes ++ [name]).length := by simp
    rw [hassoc, hpre]
    exact seqFrom_map_get stmts.flatten (g.nodes ++ [name])

/-- C1 witness: one class with a single ulong giftId field on the
entry-only graph. -/
theorem c1_witness :
    ((addClass entryGraph (chars "A") [[chars "gift_id", chars "u64"]]).edges.filter
        (fun e => e.1 == entryGraph.nodes.length)).length =
      2 * ([chars "ulong giftId"] : List (List Char)).length ∧
    ((addClass entryGraph (chars "A") [[chars "gift_id", chars "u64"]]).edges.filter
        (fun e => e.1 == entryGraph.nodes.length)).map
          (fun e => (addClass entryGraph (chars "A")
            [[chars "gift_id", chars "u64"]]).nodes[e.2]?) =
      ([[chars "gift_id", chars "u64"]] : List (List (List Char))).flatten.map some ∧
    List.Forall₂ (fun mem s => parse_stmt mem = some s) [chars "ulong giftId"]
      [[chars "gift_id", chars "u64"]] ∧
    (∀ s ∈ ([[chars "gift_id", chars "u64"]] : List (List (List Char))),
      s.length = 2) :=
  c1_class_node_alternating_edges entryGraph (chars "A") [chars "ulong giftId"]
    [[chars "gift_id", chars "u64"]] (by decide) (by simp [entryGraph]) (by decide)

/-- C2: for a document whose processing completes with the parsed class
list L (k = L.length classes, including k = 0 when no class keyword
occurrence remains), the pipeline terminates with a graph, the root
entry node (index 0) has exactly k outgoing edges whose targets are
labelled with the class names in document order, and for k = 0 the
graph is exactly the root-only entry graph with no edges. -/
theorem c2_root_edges_per_class (doc : List Char) (L : List ClassParse)
    (h : class_parses doc = some L) :
    mainGraph doc = some (buildGraph entryGraph L) ∧
    ((buildGraph entryGraph L).edges.filter (fun e => e.1 == 0)).length =
      L.length ∧
    ((buildGraph entryGraph L).edges.filter (fun e => e.1 == 0)).map
        (fun e => (buildGraph entryGraph L).nodes[e.2]?) =
      L.map (fun p => some p.1) ∧
    (L = [] → buildGraph entryGraph L = entryGraph) := by
  have hspec := buildGraph_spec L entryGraph
  have hedges : (buildGraph entryGraph L).edges = classEdges 1 L := by
    rw [hspec]
    rfl
  have hnodes : (buildGraph entryGraph L).nodes =
      [chars "entry"] ++ classesFlat L := by
    rw [hspec]
    rfl
  refine ⟨?_, ?_, ?_, ?_⟩
  · rw [mainGraph_eq, h]
    rfl
  · rw [hedges, classEdges_filter_root L 1 (by omega), rootPairs_length]
  · rw [hedges, classEdges_filter_root L 1 (by omega)]
    have h1 : (1 : Nat) = ([chars "entry"] : List (List Char)).length := rfl
    calc (rootPairs 1 L).map (fun e => (buildGraph entryGraph L).nodes[e.2]?)
        = (rootPairs ([chars "entry"] : List (List Char)).length L).map
            (fun e => ([chars "entry"] ++ classesFlat L)[e.2]?) := by
          rw [← h1, hnodes]
      _ = L.map (fun p => some p.1) := rootPairs_labels L [chars "entry"]
  · intro hL
    subst hL
    rfl

/-- C2 witness: a one-class document; the root gets exactly one edge,
labelled with the class name A, and processing terminates. -/
theorem c2_witness :
    mainGraph (chars "class A<1> \x7b\r\n\tulong giftId;\r\n\x7d;") =
      some (buildGraph entryGraph
        [(chars "A", [[chars "gift_id", chars "u64"]])]) ∧
    ((buildGraph entryGraph
        [(chars "A", [[chars "gift_id", chars "u64"]])]).edges.filter
        (fun e => e.1 == 0)).length =
      ([(chars "A", [[chars "gift_id", chars "u64"]])] : List ClassParse).length ∧
    ((buildGraph entryGraph
        [(chars "A", [[chars "gift_id", chars "u64"]])]).edges.filter
        (fun e => e.1 == 0)).map
        (fun e => (buildGraph entryGraph
          [(chars "A", [[chars "gift_id", chars "u64"]])]).nodes[e.2]?) =
      ([(chars "A", [[chars "gift_id", chars "u64"]])] : List ClassParse).map
        (fun p => some p.1) ∧
    (([(chars "A", [[chars "gift_id", chars "u64"]])] : List ClassParse) = [] →
      buildGraph entryGraph [(chars "A", [[chars "gift_id", chars "u64"]])] =
        entryGraph) :=
  c2_root_edges_per_class (chars "class A<1> \x7b\r\n\tulong giftId;\r\n\x7d;")
    [(chars "A", [[chars "gift_id", chars "u64"]])] (by decide)

/-- C9: when every confirmation that has details also has a
trade_offer_id, filter_by_trade_offer_ids completes without panicking
and retains exactly the confirmations whose trade_offer_id occurs in
the given id list — in particular every confirmation without details
is removed — preserving relative order and leaving each retained
confirmation unchanged (the result is a List.filter of the input). -/
theorem c9_filter_by_trade_offer_ids_spec (ids : List Int)
    (cs : List Confirmation)
    (h : ∀ c ∈ cs, ∀ d, c.details = some d → d.trade_offer_id ≠ none) :
    filter_by_trade_offer_ids ids cs = some (cs.filter (fun c =>
      match c.details with
      | some d =>
        match d.trade_offer_id with
        | some t => ids.any (fun i => i == t)
        | none => false
      | none => false)) := by
  induction cs with
  | nil => rfl
  | cons c rest ih =>
    have hc := h c (List.mem_cons_self _ _)
    have hrest : ∀ c' ∈ rest, ∀ d, c'.details = some d →
        d.trade_offer_id ≠ none :=
      fun c' hm => h c' (List.mem_cons_of_mem _ hm)
    unfold filter_by_trade_offer_ids
    cases hd : c.details with
    | none =>
      have hk : keep_conf ids c = some false := by
        unfold keep_conf
        rw [hd]
      rw [hk, ih hrest]
      dsimp only
      rw [List.filter_cons]
      have hp : (match c.details with
        | some d =>
          match d.trade_offer_id with
          | some t => ids.any (fun i => i == t)
          | none => false
        | none => false) = false := by rw [hd]
      rw [hp]
    | some d =>
      cases htid : d.trade_offer_id with
      | none => exact absurd htid (hc d hd)
      | some t =>
        have hk : keep_conf ids c = some (ids.any (fun i => i == t)) := by
          unfold keep_conf
          rw [hd]
          dsimp only
          rw [htid]
        rw [hk, ih hrest]
        dsimp only
        rw [List.filter_cons]
        have hp : (match c.details with
          | some d =>
            match d.trade_offer_id with
            | some t => ids.any (fun i => i == t)
            | none => false
          | none => false) = ids.any (fun i => i == t) := by
          rw [hd]
          dsimp only
          rw [htid]
        rw [hp]

/-- C9 witness: three confirmations — trade offers 1 and 2 with
details, one without details — filtered by the id list [1, 3]: only
the first survives. -/
theorem c9_witness :
    filter_by_trade_offer_ids [1, 3]
      [⟨"7676451136", "k1", EConfirmationType.Trade, some ⟨some 1⟩⟩,
       ⟨"7652515663", "k2", EConfirmationType.Trade, some ⟨some 2⟩⟩,
       ⟨"7652555421", "k3", EConfirmationType.Market, none⟩] =
      some (([⟨"7676451136", "k1", EConfirmationType.Trade, some ⟨some 1⟩⟩,
       ⟨"7652515663", "k2", EConfirmationType.Trade, some ⟨some 2⟩⟩,
       ⟨"7652555421", "k3", EConfirmationType.Market, none⟩] :
        List Confirmation).filter (fun c =>
          match c.details with
          | some d =>
            match d.trade_offer_id with
            | some t => ([1, 3] : List Int).any (fun i => i == t)
            | none => false
          | none => false)) :=
  c9_filter_by_trade_offer_ids_spec [1, 3]
    [⟨"7676451136", "k1", EConfirmationType.Trade, some ⟨some 1⟩⟩,
     ⟨"7652515663", "k2", EConfirmationType.Trade, some ⟨some 2⟩⟩,
     ⟨"7652555421", "k3", EConfirmationType.Market, none⟩]
    (by
      intro c hcm d hd
      fin_cases hcm <;> simp_all <;> subst hd <;> simp)

/-- C10: EConfirmationType::from_str never returns its declared Err
value: a string parsing as a u32 with value 0, 1, 2, 3, 5 or 6 gives
Ok of the matching variant, a string parsing as any other u32 value
(such as 4) panics in the from_u32 unwrap, and a string that is not a
valid u32 panics in the parse unwrap. -/
theorem c10_from_str_never_err :
    (∀ s : List Char, EConfirmationType.from_str s ≠ some (Except.error ())) ∧
    (∀ (s : List Char) (n : Nat), u32_from_str s = some n →
      (n = 0 ∨ n = 1 ∨ n = 2 ∨ n = 3 ∨ n = 5 ∨ n = 6) →
      ∃ v, EConfirmationType.from_u32 n = some v ∧
        EConfirmationType.from_str s = some (Except.ok v)) ∧
    (∀ (s : List Char) (n : Nat), u32_from_str s = some n →
      ¬(n = 0 ∨ n = 1 ∨ n = 2 ∨ n = 3 ∨ n = 5 ∨ n = 6) →
      EConfirmationType.from_str s = none) ∧
    (∀ s : List Char, u32_from_str s = none →
      EConfirmationType.from_str s = none) := by
  have hz : ∀ n : Nat, ¬(n = 0 ∨ n = 1 ∨ n = 2 ∨ n = 3 ∨ n = 5 ∨ n = 6) →
      EConfirmationType.from_u32 n = none := by
    intro n hn
    have h4 : n = 4 ∨ 7 ≤ n := by omega
    rcases h4 with h | h
    · subst h; rfl
    · obtain ⟨m, rfl⟩ : ∃ m, n = m + 7 := ⟨n - 7, by omega⟩
      rfl
  refine ⟨?_, ?_, ?_, ?_⟩
  · intro s heq
    unfold EConfirmationType.from_str at heq
    cases hu : u32_from_str s with
    | none => rw [hu] at heq; exact absurd heq (by simp)
    | some n =>
      rw [hu] at heq
      dsimp only at heq
      cases hf : EConfirmationType.from_u32 n with
      | none => rw [hf] at heq; exact absurd heq (by simp)
      | some v =>
        rw [hf] at heq
        exact absurd heq (by simp)
  · intro s n hu hn
    have hex : ∃ v, EConfirmationType.from_u32 n = some v := by
      rcases hn with h | h | h | h | h | h <;> subst h <;> exact ⟨_, rfl⟩
    obtain ⟨v, hv⟩ := hex
    refine ⟨v, hv, ?_⟩
    unfold EConfirmationType.from_str
    rw [hu]
    dsimp only
    rw [hv]
  · intro s n hu hn
    unfold EConfirmationType.from_str
    rw [hu]
    dsimp only
    rw [hz n hn]
  · intro s hu
    unfold EConfirmationType.from_str
    rw [hu]

/-- C10 witness: the string 2 parses to the u32 value 2 and from_str
returns Ok Trade. -/
theorem c10_witness :
    ∃ v, EConfirmationType.from_u32 2 = some v ∧
      EConfirmationType.from_str (chars "2") = some (Except.ok v) :=
  c10_from_str_never_err.2.1 (chars "2") 2 (by decide)
    (Or.inr (Or.inr (Or.inl rfl)))
